import Mathlib

/-!
Verification of the huberman-rlm CLI (huberman_cli.py / huberman_qa.py).

Strings are modelled as `List Char`.  Python string primitives
(`strip`, `find`, `split`, `replace`, slicing) are embedded as executable
functions below; recursion that skips over a separator is expressed with a
fuel parameter (fuel `s.length + 1` always suffices, see the `_irrel`
lemmas) so that every definition reduces inside the kernel.
-/

set_option maxHeartbeats 1000000

namespace Huberman

/-- Python whitespace, as tested by `str.strip()`. -/
def isPySpace (c : Char) : Bool :=
  c == ' ' || c == '\t' || c == '\n' || c == '\r' || c == Char.ofNat 11 || c == Char.ofNat 12

/-- Python `s.lstrip()`. -/
def lstrip (s : List Char) : List Char := s.dropWhile isPySpace

/-- Python `s.rstrip()`. -/
def rstrip (s : List Char) : List Char := (s.reverse.dropWhile isPySpace).reverse

/-- Python `s.strip()`. -/
def pyStrip (s : List Char) : List Char := rstrip (lstrip s)

/-- Index of the first occurrence of `needle` in `hay`, if any
(the scan underlying Python `find` / `in` / `split`). -/
def firstIdx (needle : List Char) : List Char → Option Nat
  | [] => if needle.isPrefixOf [] then some 0 else none
  | c :: t =>
    if needle.isPrefixOf (c :: t) then some 0 else (firstIdx needle t).map (· + 1)

/-- Python `hay.find(needle)`: first index, or `-1` when absent. -/
def pyFind (needle hay : List Char) : Int :=
  match firstIdx needle hay with
  | some i => (i : Int)
  | none => -1

/-- Python substring containment `needle in hay`. -/
def pyIn (needle hay : List Char) : Bool := (firstIdx needle hay).isSome

/-- Fueled worker for Python `s.split(sep)` (all occurrences, `sep` nonempty). -/
def pySplitF (sep : List Char) : Nat → List Char → List (List Char)
  | 0, s => [s]
  | f + 1, s =>
    match firstIdx sep s with
    | none => [s]
    | some i => s.take i :: pySplitF sep f (s.drop (i + sep.length))

/-- Python `s.split(sep)` for a nonempty separator. -/
def pySplit (sep s : List Char) : List (List Char) := pySplitF sep (s.length + 1) s

/-- Python `s.split(sep, maxsplit)`: split on at most `n` occurrences. -/
def pySplitN (sep : List Char) : Nat → List Char → List (List Char)
  | 0, s => [s]
  | n + 1, s =>
    match firstIdx sep s with
    | none => [s]
    | some i => s.take i :: pySplitN sep n (s.drop (i + sep.length))

/-- Fueled worker for Python `s.replace(pat, rep)` (`pat` nonempty). -/
def pyReplaceF (pat rep : List Char) : Nat → List Char → List Char
  | 0, s => s
  | f + 1, s =>
    if pat ≠ [] ∧ pat.isPrefixOf s then rep ++ pyReplaceF pat rep f (s.drop pat.length)
    else
      match s with
      | [] => []
      | c :: t => c :: pyReplaceF pat rep f t

/-- Python `s.replace(pat, rep)` for a nonempty pattern. -/
def pyReplace (pat rep s : List Char) : List Char := pyReplaceF pat rep (s.length + 1) s

/-- Decimal digits of `n`, as produced by a Python f-string placeholder. -/
def natCharsF : Nat → Nat → List Char
  | 0, _ => []
  | f + 1, n =>
    if n < 10 then [Char.ofNat (48 + n)]
    else natCharsF f (n / 10) ++ [Char.ofNat (48 + n % 10)]

/-- Decimal representation of `n` as a character list. -/
def natChars (n : Nat) : List Char := natCharsF (n + 1) n

/-- Python `"\n".join(lines)`. -/
def joinNl : List (List Char) → List Char
  | [] => []
  | [x] => x
  | x :: y :: t => x ++ '\n' :: joinNl (y :: t)

/-! ## The program (translated from `src/huberman_cli.py`) -/

/-- `load_transcripts`, title derivation (line 99-100):
`parts = filepath.stem.split("_", 2)` and
`title = parts[2].replace("_", " ").replace(".vtt", "") if len(parts) >= 3 else filepath.stem`. -/
def title (stem : List Char) : List Char :=
  let parts := pySplitN ("_".toList) 2 stem
  if 3 ≤ parts.length then
    pyReplace (".vtt".toList) [] (pyReplace ("_".toList) (" ".toList) (parts.getD 2 []))
  else stem

/-- Python dict assignment `d[k] = v`: update the existing entry in place,
otherwise append the new binding at the end. -/
def dictInsert (d : List (List Char × List Char)) (k v : List Char) :
    List (List Char × List Char) :=
  match d with
  | [] => [(k, v)]
  | (k2, v2) :: t => if k2 = k then (k, v) :: t else (k2, v2) :: dictInsert t k v

/-- `load_transcripts` (lines 96-102): a directory is modelled as the list of
`(stem, content)` pairs produced by `TRANSCRIPTS_DIR.glob("*.txt")`;
`transcripts[title] = filepath.read_text()` is the dict fold below. -/
def load_transcripts (files : List (List Char × List Char)) :
    List (List Char × List Char) :=
  files.foldl (fun d f => dictInsert d (title f.1) f.2) []

/-- The keys of a Python dict modelled as an association list. -/
def keys (d : List (List Char × List Char)) : List (List Char) := d.map Prod.fst

/-- The lines built by the loop in `format_history` (lines 109-110):
`lines.extend([f"\nQ{i}: {q}", f"A{i}: {a}"])` with `enumerate(history, 1)`. -/
def entryLines : Nat → List (List Char × List Char) → List (List Char)
  | _, [] => []
  | i, (q, a) :: t =>
    ('\n' :: 'Q' :: (natChars i ++ ':' :: ' ' :: q)) ::
      ('A' :: (natChars i ++ ':' :: ' ' :: a)) :: entryLines (i + 1) t

/-- `format_history` (lines 105-111). -/
def format_history (history : List (List Char × List Char)) : List Char :=
  if history = [] then "No previous conversation.".toList
  else joinNl ("Previous conversation:".toList :: entryLines 1 history)

/-- Progress Event: the structured display unit produced from one log line. -/
inductive Event where
  | iterationStart (index : List Char)
  | reasoningBlock (text : List Char)
  | codeBlock (text : List Char)
  deriving DecidableEq, Repr

/-- Display truncation of a reasoning segment (line 55):
`reasoning[:500] + "..." if len(reasoning) > 500 else reasoning`. -/
def truncReasoning (s : List Char) : List Char :=
  if 500 < s.length then s.take 500 ++ "...".toList else s

/-- Display truncation of a code segment (lines 73-74):
`if len(code) > 800: code = code[:800] + "\n# ... (truncated)"`. -/
def truncCode (s : List Char) : List Char :=
  if 800 < s.length then s.take 800 ++ "\n# ... (truncated)".toList else s

/-- The reasoning segment computed in `emit` (lines 44-51):
`reasoning_start = content.find("Reasoning:") + len("Reasoning:")`,
`code_start = content.find("Code:")`; if `code_start > 0` the segment is
`content[reasoning_start:code_start].strip()`, else `content[reasoning_start:].strip()`. -/
def reasoningSegment (content : List Char) : List Char :=
  if 0 < pyFind ("Code:".toList) content then
    pyStrip ((content.drop ((pyFind ("Reasoning:".toList) content + 10).toNat)).take
      ((pyFind ("Code:".toList) content).toNat -
        (pyFind ("Reasoning:".toList) content + 10).toNat))
  else pyStrip (content.drop ((pyFind ("Reasoning:".toList) content + 10).toNat))

/-- The code segment computed in `emit` (lines 47-52):
`content[code_start + len("Code:"):].strip()` when `code_start > 0`, else `""`. -/
def codeSegment (content : List Char) : List Char :=
  if 0 < pyFind ("Code:".toList) content then
    pyStrip (content.drop ((pyFind ("Code:".toList) content).toNat + 5))
  else []

/-- Removal of a trailing fence (lines 69-70):
`if code.endswith("```"): code = code[:-3]`. -/
def fenceTail (c : List Char) : List Char :=
  if ("```".toList).isSuffixOf c then c.take (c.length - 3) else c

/-- Removal of a leading fence then a trailing fence (lines 65-70): the
`for prefix in ("```python", "```")` loop strips the first matching
leading marker and breaks. -/
def fenceStrip (c : List Char) : List Char :=
  if ("```python".toList).isPrefixOf c then fenceTail (c.drop 9)
  else if ("```".toList).isPrefixOf c then fenceTail (c.drop 3)
  else fenceTail c

/-- The display transformation of a nonempty code segment (lines 64-74):
strip, remove fence markers, strip again, then truncate. -/
def processCode (code : List Char) : List Char :=
  truncCode (pyStrip (fenceStrip (pyStrip code)))

/-- The header of a log message: `parts = msg.split("\n", 1); header = parts[0]`. -/
def headerOf (msg : List Char) : List Char := (pySplitN ("\n".toList) 1 msg).headI

/-- The body of a log message: `parts[1]` (the text after the first newline). -/
def bodyOf (msg : List Char) : List Char := (pySplitN ("\n".toList) 1 msg).getD 1 []

/-- `RLMProgressHandler.emit` (lines 28-81) as a pure event producer.
Console output becomes the returned event list; an uncaught Python
exception (the `[1]` index on `header.split("iteration")`) becomes
`Except.error ()`.  The guard on line 40 is `len(parts) <= 1 or
"Reasoning:" not in parts[1]`; the two conditional panels of lines 54-81
are the two appended singleton lists. -/
def emitEvents (msg : List Char) : Except Unit (List Event) :=
  if pyIn ("RLM iteration".toList) msg then
    match (pySplit ("iteration".toList) (headerOf msg)).get? 1 with
    | none => Except.error ()
    | some seg =>
      if (pySplitN ("\n".toList) 1 msg).length ≤ 1 ∨
          ¬ pyIn ("Reasoning:".toList) (bodyOf msg) then
        Except.ok [Event.iterationStart (pyStrip ((pySplit ("/".toList) (pyStrip seg)).headI))]
      else
        Except.ok ([Event.iterationStart (pyStrip ((pySplit ("/".toList) (pyStrip seg)).headI))] ++
          (if reasoningSegment (bodyOf msg) ≠ [] then
            [Event.reasoningBlock (truncReasoning (reasoningSegment (bodyOf msg)))]
          else []) ++
          (if codeSegment (bodyOf msg) ≠ [] then
            [Event.codeBlock (processCode (codeSegment (bodyOf msg)))]
          else []))
  else Except.ok []

/-- The result object returned by the External Reasoning Engine call. -/
structure EngineResult where
  answer : List Char
  sources : List (List Char)

/-- One `ProcessingQuestion` round of `main` (lines 220-229): call the engine
with the formatted history and the question; on success append
`(question, result.answer)` to history, on failure leave history unchanged.
The engine (and its closed-over transcripts) is an opaque function returning
`Except`; the console output of `display_answer` has no effect on history. -/
def processQuestion (call : List Char → List Char → Except (List Char) EngineResult)
    (history : List (List Char × List Char)) (question : List Char) :
    List (List Char × List Char) :=
  match call (format_history history) question with
  | Except.ok r => history ++ [(question, r.answer)]
  | Except.error _ => history

/-! ## Definitions written from the specification text
(compared against the program definitions in refinement claims) -/

/-- Underscore-to-space substitution on one character. -/
def underscoreToSpace (c : Char) : Char := if c = '_' then ' ' else c

/-- Title derivation as the amended C4 claim words it: split the stem on
underscore into at most three parts; with at least three parts, the title is
the third part with underscores replaced by spaces and every occurrence of
the subtitle suffix `.vtt` removed; otherwise the bare stem. -/
def specTitle (stem : List Char) : List Char :=
  let parts := pySplitN ("_".toList) 2 stem
  if 3 ≤ parts.length then
    (pySplit (".vtt".toList) ((parts.getD 2 []).map underscoreToSpace)).flatten
  else stem

/-- Title derivation as the C4 claim states it, reading "residual
subtitle-format suffix stripped" strictly: remove one trailing `.vtt`. -/
def claimTitle (stem : List Char) : List Char :=
  let parts := pySplitN ("_".toList) 2 stem
  if 3 ≤ parts.length then
    let t := (parts.getD 2 []).map underscoreToSpace
    if (".vtt".toList).isSuffixOf t then t.take (t.length - 4) else t
  else stem

/-- One history entry as the amended C7 claim words it: a blank separator
line, the question line `Qn: q`, and the answer line `An: a`. -/
def histChunk (i : Nat) (p : List Char × List Char) : List Char :=
  '\n' :: '\n' :: 'Q' :: (natChars i ++ ':' :: ' ' :: p.1) ++
    '\n' :: 'A' :: (natChars i ++ ':' :: ' ' :: p.2)

/-- The entry blocks of a formatted history, 1-based from `i`. -/
def histChunks : Nat → List (List Char × List Char) → List Char
  | _, [] => []
  | i, p :: t => histChunk i p ++ histChunks (i + 1) t

/-- Drop a `Qn: ` / `An: ` marker: the text after the first `: `. -/
def afterMarker (l : List Char) : List Char :=
  match firstIdx (':' :: [' ']) l with
  | some i => l.drop (i + 2)
  | none => l

/-- Fueled worker re-deriving `(question, answer)` pairs from formatted
history text via the `Qn:` / `An:` markers (C8, modelled from the spec:
no parser exists in the source).  An entry block is a blank separator line,
a question line and an answer line; the marker prefix of each line is
dropped through its first `: `. -/
def parseEntriesF : Nat → List Char → List (List Char × List Char)
  | 0, _ => []
  | f + 1, s =>
    match s with
    | c1 :: c2 :: rest =>
      if c1 = '\n' ∧ c2 = '\n' then
        match rest.dropWhile (fun c => c != '\n') with
        | c3 :: rest3 =>
          if c3 = '\n' then
            (afterMarker (rest.takeWhile (fun c => c != '\n')),
              afterMarker (rest3.takeWhile (fun c => c != '\n'))) ::
              parseEntriesF f (rest3.dropWhile (fun c => c != '\n'))
          else []
        | _ => []
      else []
    | _ => []

/-- Re-derive the pairs of a formatted history from its entry blocks. -/
def parseEntries (s : List Char) : List (List Char × List Char) :=
  parseEntriesF (s.length + 1) s

/-- A history whose questions and answers contain no newline. -/
def nlFree (h : List (List Char × List Char)) : Prop :=
  ∀ p ∈ h, ¬ '\n' ∈ p.1 ∧ ¬ '\n' ∈ p.2

/-- The step index as the C10 claim words it: the whitespace-trimmed raw
text between the first `iteration` token and the next `/` separator. -/
def specIdx (header : List Char) : List Char :=
  let i := (firstIdx ("iteration".toList) header).getD 0
  pyStrip ((header.drop (i + 9)).takeWhile (fun c => c != '/'))

/-- Reasoning segment as the amended C5 claim words it: the text from the
end of the first `Reasoning:` marker up to the first `Code:` marker when
that marker occurs at a strictly positive offset, else to the end of the
body; trimmed. -/
def specReasoningSeg (content : List Char) : List Char :=
  match firstIdx ("Code:".toList) content with
  | some cs =>
    if 0 < cs then
      pyStrip ((content.take cs).drop ((firstIdx ("Reasoning:".toList) content).getD 0 + 10))
    else pyStrip (content.drop ((firstIdx ("Reasoning:".toList) content).getD 0 + 10))
  | none => pyStrip (content.drop ((firstIdx ("Reasoning:".toList) content).getD 0 + 10))

/-- Code segment as the amended C5 claim words it: the trimmed remainder
after a `Code:` marker occurring at a strictly positive offset, else empty. -/
def specCodeSeg (content : List Char) : List Char :=
  match firstIdx ("Code:".toList) content with
  | some cs => if 0 < cs then pyStrip (content.drop (cs + 5)) else []
  | none => []

/-- Reasoning segment as the C5 claim states it (a `Code:` marker anywhere
in the body bounds the reasoning slice). -/
def claimReasoningSeg (content : List Char) : List Char :=
  match firstIdx ("Code:".toList) content with
  | some cs =>
    pyStrip ((content.take cs).drop ((firstIdx ("Reasoning:".toList) content).getD 0 + 10))
  | none => pyStrip (content.drop ((firstIdx ("Reasoning:".toList) content).getD 0 + 10))

/-- Code segment as the C5 claim states it: whenever a `Code:` marker is
present, the trimmed remainder after it. -/
def claimCodeSeg (content : List Char) : List Char :=
  match firstIdx ("Code:".toList) content with
  | some cs => pyStrip (content.drop (cs + 5))
  | none => []

/-- Trailing-fence removal as the amended C5 claim words it, phrased with
the suffix order relation. -/
def specFenceTail (c : List Char) : List Char :=
  if ("```".toList) <:+ c then c.take (c.length - 3) else c

/-- Fence stripping as the amended C5 claim words it, phrased with the
prefix/suffix order relations: remove a leading fence (naming the language
python, or bare) and a trailing fence when present at the very start/end. -/
def specStripFence (c : List Char) : List Char :=
  if ("```python".toList) <+: c then specFenceTail (c.drop 9)
  else if ("```".toList) <+: c then specFenceTail (c.drop 3)
  else specFenceTail c

/-! ## Basic lemmas about the string primitives -/

theorem firstIdx_nil (sep : List Char) (hsep : sep ≠ []) : firstIdx sep [] = none := by
  cases sep with
  | nil => exact absurd rfl hsep
  | cons c t => simp [firstIdx, List.isPrefixOf]

theorem firstIdx_bound {needle : List Char} :
    ∀ {hay : List Char} {i : Nat}, firstIdx needle hay = some i →
      needle.length + i ≤ hay.length := by
  intro hay
  induction hay with
  | nil =>
    intro i h
    simp only [firstIdx] at h
    split at h
    · rename_i hp
      have : needle <+: ([] : List Char) := List.isPrefixOf_iff_prefix.mp hp
      have : needle = [] := List.prefix_nil.mp this
      simp_all
    · exact absurd h (by simp)
  | cons c t ih =>
    intro i h
    simp only [firstIdx] at h
    split at h
    · rename_i hp
      have hle : needle.length ≤ (c :: t).length :=
        (List.isPrefixOf_iff_prefix.mp hp).length_le
      cases h
      simpa using hle
    · rcases Option.map_eq_some'.mp h with ⟨j, hj, rfl⟩
      have := ih hj
      simp only [List.length_cons]
      omega

theorem length_sep_pos (sep : List Char) (hsep : sep ≠ []) : 1 ≤ sep.length := by
  cases sep with
  | nil => exact absurd rfl hsep
  | cons a b => simp

theorem pySplitF_succ (sep : List Char) (f : Nat) (s : List Char) :
    pySplitF sep (f + 1) s =
      match firstIdx sep s with
      | none => [s]
      | some i => s.take i :: pySplitF sep f (s.drop (i + sep.length)) := rfl

theorem pySplitF_irrel (sep : List Char) (hsep : sep ≠ []) :
    ∀ n f g s, s.length ≤ n → s.length < f → s.length < g →
      pySplitF sep f s = pySplitF sep g s := by
  intro n
  induction n with
  | zero =>
    intro f g s hn hf hg
    have hs : s = [] := List.length_eq_zero.mp (Nat.le_zero.mp hn)
    subst hs
    cases f with
    | zero => omega
    | succ f =>
      cases g with
      | zero => omega
      | succ g => simp [pySplitF_succ, firstIdx_nil sep hsep]
  | succ n ih =>
    intro f g s hn hf hg
    cases f with
    | zero => omega
    | succ f =>
      cases g with
      | zero => omega
      | succ g =>
        rw [pySplitF_succ, pySplitF_succ]
        cases h : firstIdx sep s with
        | none => rfl
        | some i =>
          have hb := firstIdx_bound h
          have hsl := length_sep_pos sep hsep
          have hdrop : (s.drop (i + sep.length)).length = s.length - (i + sep.length) :=
            List.length_drop _ _
          show s.take i :: pySplitF sep f (s.drop (i + sep.length)) =
            s.take i :: pySplitF sep g (s.drop (i + sep.length))
          rw [ih f g (s.drop (i + sep.length)) (by omega) (by omega) (by omega)]

theorem pySplit_cons (sep : List Char) (hsep : sep ≠ []) (s : List Char) :
    pySplit sep s =
      match firstIdx sep s with
      | none => [s]
      | some i => s.take i :: pySplit sep (s.drop (i + sep.length)) := by
  rw [pySplit, pySplitF_succ]
  cases h : firstIdx sep s with
  | none => rfl
  | some i =>
    have hb := firstIdx_bound h
    have hsl := length_sep_pos sep hsep
    have hdrop : (s.drop (i + sep.length)).length = s.length - (i + sep.length) :=
      List.length_drop _ _
    show s.take i :: pySplitF sep s.length (s.drop (i + sep.length)) =
      s.take i :: pySplit sep (s.drop (i + sep.length))
    rw [pySplit]
    rw [pySplitF_irrel sep hsep (s.drop (i + sep.length)).length s.length
      ((s.drop (i + sep.length)).length + 1) (s.drop (i + sep.length))
      le_rfl (by omega) (by omega)]

theorem pySplit_ne_nil (sep : List Char) (hsep : sep ≠ []) (s : List Char) :
    pySplit sep s ≠ [] := by
  rw [pySplit_cons sep hsep s]
  cases firstIdx sep s <;> simp

theorem pyReplaceF_succ (pat rep : List Char) (f : Nat) (s : List Char) :
    pyReplaceF pat rep (f + 1) s =
      if pat ≠ [] ∧ pat.isPrefixOf s then rep ++ pyReplaceF pat rep f (s.drop pat.length)
      else
        match s with
        | [] => []
        | c :: t => c :: pyReplaceF pat rep f t := rfl

theorem pyReplaceF_irrel (pat rep : List Char) (hp : pat ≠ []) :
    ∀ n f g s, s.length ≤ n → s.length < f → s.length < g →
      pyReplaceF pat rep f s = pyReplaceF pat rep g s := by
  intro n
  induction n with
  | zero =>
    intro f g s hn hf hg
    have hs : s = [] := List.length_eq_zero.mp (Nat.le_zero.mp hn)
    subst hs
    cases f with
    | zero => omega
    | succ f =>
      cases g with
      | zero => omega
      | succ g =>
        have hnp : ¬ (pat ≠ [] ∧ pat.isPrefixOf ([] : List Char)) := by
          rintro ⟨h1, h2⟩
          exact h1 (List.prefix_nil.mp (List.isPrefixOf_iff_prefix.mp h2))
        rw [pyReplaceF_succ, pyReplaceF_succ, if_neg hnp, if_neg hnp]
  | succ n ih =>
    intro f g s hn hf hg
    cases f with
    | zero => omega
    | succ f =>
      cases g with
      | zero => omega
      | succ g =>
        rw [pyReplaceF_succ, pyReplaceF_succ]
        by_cases hc : pat ≠ [] ∧ pat.isPrefixOf s
        · rw [if_pos hc, if_pos hc]
          have hpl := length_sep_pos pat hp
          have hple : pat.length ≤ s.length :=
            (List.isPrefixOf_iff_prefix.mp hc.2).length_le
          have hdrop : (s.drop pat.length).length = s.length - pat.length :=
            List.length_drop _ _
          rw [ih f g (s.drop pat.length) (by omega) (by omega) (by omega)]
        · rw [if_neg hc, if_neg hc]
          cases s with
          | nil => rfl
          | cons c t =>
            simp only [List.length_cons] at hn hf hg
            show c :: pyReplaceF pat rep f t = c :: pyReplaceF pat rep g t
            rw [ih f g t (by omega) (by omega) (by omega)]

theorem pyReplace_eq (pat rep : List Char) (hp : pat ≠ []) (s : List Char) :
    pyReplace pat rep s =
      if pat.isPrefixOf s then rep ++ pyReplace pat rep (s.drop pat.length)
      else
        match s with
        | [] => []
        | c :: t => c :: pyReplace pat rep t := by
  rw [pyReplace, pyReplaceF_succ]
  by_cases hc : pat.isPrefixOf s
  · rw [if_pos ⟨hp, hc⟩, if_pos hc]
    have hpl := length_sep_pos pat hp
    have hple : pat.length ≤ s.length :=
      (List.isPrefixOf_iff_prefix.mp hc).length_le
    have hdrop : (s.drop pat.length).length = s.length - pat.length :=
      List.length_drop _ _
    rw [pyReplace]
    rw [pyReplaceF_irrel pat rep hp (s.drop pat.length).length s.length
      ((s.drop pat.length).length + 1) (s.drop pat.length)
      le_rfl (by omega) (by omega)]
  · rw [if_neg (by simp [hc]), if_neg hc]
    cases s with
    | nil => rfl
    | cons c t =>
      show c :: pyReplaceF pat rep (t.length + 1) t = c :: pyReplace pat rep t
      rw [pyReplace]

/-! ## C1 — the Progress Interpreter can raise on a marker-bearing line -/

/-- C1: refuted by the code: on a log line whose marker occurs only after
the first newline, `header.split("iteration")[1]` raises `IndexError`
(modelled as `Except.error ()`), so processing does not return normally. -/
theorem emit_error_on_marker_after_newline :
    emitEvents ("x\nRLM iteration 3/20".toList) = Except.error () := rfl

/-! ## C2 — history append if and only if the engine call succeeds -/

/-- C2: exactly one `(question, answer)` pair is appended to the history
when the engine call returns successfully; a failed call leaves the
history unchanged, so no partially recorded exchange ever exists. -/
theorem processQuestion_history
    (call : List Char → List Char → Except (List Char) EngineResult)
    (history : List (List Char × List Char)) (question : List Char) :
    (∀ r, call (format_history history) question = Except.ok r →
      processQuestion call history question = history ++ [(question, r.answer)]) ∧
    (∀ e, call (format_history history) question = Except.error e →
      processQuestion call history question = history) ∧
    ((processQuestion call history question).length = history.length + 1 ↔
      ∃ r, call (format_history history) question = Except.ok r) := by
  refine ⟨?_, ?_, ?_⟩
  · intro r h
    simp [processQuestion, h]
  · intro e h
    simp [processQuestion, h]
  · cases h : call (format_history history) question with
    | ok r => simp [processQuestion, h]
    | error e => simp [processQuestion, h]

/-- Witness for C2 at a concrete succeeding call and a concrete failing call. -/
theorem processQuestion_history_witness :
    (fun _ _ => Except.ok ⟨"ans".toList, []⟩ :
        List Char → List Char → Except (List Char) EngineResult)
      (format_history []) ("q".toList) = Except.ok ⟨"ans".toList, []⟩ ∧
    processQuestion (fun _ _ => Except.ok ⟨"ans".toList, []⟩) [] ("q".toList) =
      [] ++ [(("q".toList), "ans".toList)] ∧
    (fun _ _ => Except.error ("boom".toList) :
        List Char → List Char → Except (List Char) EngineResult)
      (format_history []) ("q".toList) = Except.error ("boom".toList) ∧
    processQuestion (fun _ _ => Except.error ("boom".toList)) [] ("q".toList) = [] :=
  ⟨rfl, (processQuestion_history _ [] _).1 _ rfl, rfl,
    (processQuestion_history _ [] _).2.1 _ rfl⟩

/-! ## C6 — display truncation limits -/

/-- C6: a reasoning segment over 500 characters is cut to its first 500
characters plus a truncation marker and a code segment over 800 characters
to its first 800 plus a marker; segments at or under the limits pass
through unchanged. -/
theorem trunc_display (s : List Char) :
    (s.length ≤ 500 → truncReasoning s = s) ∧
    (500 < s.length → truncReasoning s = s.take 500 ++ "...".toList) ∧
    (s.length ≤ 800 → truncCode s = s) ∧
    (800 < s.length → truncCode s = s.take 800 ++ "\n# ... (truncated)".toList) := by
  refine ⟨fun h => ?_, fun h => ?_, fun h => ?_, fun h => ?_⟩
  · rw [truncReasoning, if_neg (by omega)]
  · rw [truncReasoning, if_pos h]
  · rw [truncCode, if_neg (by omega)]
  · rw [truncCode, if_pos h]

/-- Witness for C6 at the spec's 600/900-character segments and at the
boundary lengths 500/800. -/
theorem trunc_display_witness :
    500 < (List.replicate 600 'a').length ∧
    truncReasoning (List.replicate 600 'a') =
      (List.replicate 600 'a').take 500 ++ "...".toList ∧
    800 < (List.replicate 900 'b').length ∧
    truncCode (List.replicate 900 'b') =
      (List.replicate 900 'b').take 800 ++ "\n# ... (truncated)".toList ∧
    truncReasoning (List.replicate 500 'c') = List.replicate 500 'c' ∧
    truncCode (List.replicate 800 'd') = List.replicate 800 'd' :=
  ⟨by have := List.length_replicate 600 'a'; omega,
    (trunc_display _).2.1 (by have := List.length_replicate 600 'a'; omega),
    by have := List.length_replicate 900 'b'; omega,
    (trunc_display _).2.2.2 (by have := List.length_replicate 900 'b'; omega),
    (trunc_display _).1 (by have := List.length_replicate 500 'c'; omega),
    (trunc_display _).2.2.1 (by have := List.length_replicate 800 'd'; omega)⟩

/-! ## C9 — no marker means no events; the canonical line yields three events -/

/-- C9: a log line without the iteration marker produces zero events, and
the line `RLM iteration 3/20\nReasoning: because X\nCode: print(1)`
produces exactly IterationStart 3, ReasoningBlock "because X" and
CodeBlock "print(1)". -/
theorem emit_basic :
    (∀ msg : List Char, pyIn ("RLM iteration".toList) msg = false →
      emitEvents msg = Except.ok []) ∧
    emitEvents ("RLM iteration 3/20\nReasoning: because X\nCode: print(1)".toList) =
      Except.ok [Event.iterationStart ("3".toList),
        Event.reasoningBlock ("because X".toList),
        Event.codeBlock ("print(1)".toList)] := by
  constructor
  · intro msg h
    have h2 : ¬ (pyIn ("RLM iteration".toList) msg = true) := by
      intro hc
      rw [h] at hc
      exact Bool.noConfusion hc
    rw [emitEvents, if_neg h2]
  · rfl

/-- Witness for C9 at a concrete marker-free line. -/
theorem emit_basic_witness :
    pyIn ("RLM iteration".toList) ("hello world".toList) = false ∧
    emitEvents ("hello world".toList) = Except.ok [] :=
  ⟨rfl, emit_basic.1 _ rfl⟩

/-! ## C3 — shape of the loaded corpus -/

theorem dictInsert_ne_nil (d : List (List Char × List Char)) (k v : List Char) :
    dictInsert d k v ≠ [] := by
  cases d with
  | nil => simp [dictInsert]
  | cons p t =>
    obtain ⟨k2, v2⟩ := p
    simp only [dictInsert]
    split <;> simp

theorem mem_keys_dictInsert (d : List (List Char × List Char)) (k v x : List Char) :
    x ∈ keys (dictInsert d k v) ↔ x = k ∨ x ∈ keys d := by
  induction d with
  | nil => simp [dictInsert, keys]
  | cons p t ih =>
    obtain ⟨k2, v2⟩ := p
    by_cases h : k2 = k
    · subst h
      simp only [dictInsert, if_pos rfl, keys, List.map_cons]
      simp only [keys] at *
      simp
    · simp only [dictInsert, if_neg h, keys, List.map_cons, List.mem_cons]
      simp only [keys] at ih
      rw [ih]
      tauto

theorem keys_nodup_dictInsert (d : List (List Char × List Char)) (k v : List Char)
    (h : (keys d).Nodup) : (keys (dictInsert d k v)).Nodup := by
  induction d with
  | nil => simp [dictInsert, keys]
  | cons p t ih =>
    obtain ⟨k2, v2⟩ := p
    simp only [keys, List.map_cons, List.nodup_cons] at h
    by_cases hk : k2 = k
    · subst hk
      have he : dictInsert ((k2, v2) :: t) k2 v = (k2, v) :: t := by
        simp [dictInsert]
      rw [he]
      simp only [keys, List.map_cons, List.nodup_cons]
      exact ⟨h.1, h.2⟩
    · simp only [dictInsert, if_neg hk, keys, List.map_cons, List.nodup_cons]
      refine ⟨?_, ih h.2⟩
      intro hc
      rcases (mem_keys_dictInsert t k v k2).mp hc with h1 | h2
      · exact hk h1
      · exact h.1 h2

theorem foldl_dictInsert_ne_nil (files : List (List Char × List Char)) :
    ∀ d, d ≠ [] →
      files.foldl (fun d f => dictInsert d (title f.1) f.2) d ≠ [] := by
  induction files with
  | nil => intro d hd; simpa using hd
  | cons f t ih =>
    intro d hd
    simp only [List.foldl_cons]
    exact ih _ (dictInsert_ne_nil _ _ _)

theorem load_fold_keys (files : List (List Char × List Char)) :
    ∀ d, (keys d).Nodup →
      (keys (files.foldl (fun d f => dictInsert d (title f.1) f.2) d)).Nodup ∧
      (∀ x, x ∈ keys (files.foldl (fun d f => dictInsert d (title f.1) f.2) d) ↔
        x ∈ keys d ∨ x ∈ files.map (fun f => title f.1)) := by
  induction files with
  | nil =>
    intro d hd
    refine ⟨hd, ?_⟩
    simp
  | cons f t ih =>
    intro d hd
    simp only [List.foldl_cons]
    obtain ⟨h1, h2⟩ := ih (dictInsert d (title f.1) f.2) (keys_nodup_dictInsert _ _ _ hd)
    refine ⟨h1, ?_⟩
    intro x
    rw [h2 x, mem_keys_dictInsert, List.map_cons, List.mem_cons]
    tauto

/-- C3, corrected: the loaded mapping has one entry per distinct derived
title — its keys are exactly the titles derived from the files, without
duplicates — and a non-empty file list yields a non-empty mapping.  Files
sharing a derived title collapse into a single entry, and a derived title
may be the empty string, which refutes the claim as stated. -/
theorem load_transcripts_keys (files : List (List Char × List Char)) :
    (keys (load_transcripts files)).Nodup ∧
    (∀ x, x ∈ keys (load_transcripts files) ↔ x ∈ files.map (fun f => title f.1)) ∧
    (files ≠ [] → load_transcripts files ≠ []) := by
  obtain ⟨h1, h2⟩ := load_fold_keys files [] (by simp [keys])
  refine ⟨h1, ?_, ?_⟩
  · intro x
    simp only [load_transcripts]
    rw [h2 x]
    simp [keys]
  · intro hne
    cases files with
    | nil => exact absurd rfl hne
    | cons f t =>
      simp only [load_transcripts, List.foldl_cons]
      exact foldl_dictInsert_ne_nil t _ (dictInsert_ne_nil _ _ _)

/-- C3 counterexample: the stems `a_b_X` and `c_d_X` derive the same title,
so two files produce one entry (not one entry per file), and the stem
`a_b_` derives the empty-string title. -/
theorem load_transcripts_counterexample :
    (load_transcripts [("a_b_X".toList, "t1".toList), ("c_d_X".toList, "t2".toList)]).length = 1 ∧
    [("a_b_X".toList, "t1".toList), ("c_d_X".toList, "t2".toList)].length = 2 ∧
    load_transcripts [("a_b_".toList, "t".toList)] = [([], "t".toList)] :=
  ⟨rfl, rfl, rfl⟩

/-- Witness for C3 at a concrete one-file directory. -/
theorem load_transcripts_keys_witness :
    (keys (load_transcripts [("a_b_Sleep".toList, "txt".toList)])).Nodup ∧
    (("Sleep".toList) ∈ keys (load_transcripts [("a_b_Sleep".toList, "txt".toList)]) ↔
      ("Sleep".toList) ∈ [("a_b_Sleep".toList, "txt".toList)].map (fun f => title f.1)) ∧
    [("a_b_Sleep".toList, "txt".toList)] ≠ ([] : List (List Char × List Char)) ∧
    load_transcripts [("a_b_Sleep".toList, "txt".toList)] ≠ [] :=
  ⟨(load_transcripts_keys _).1, (load_transcripts_keys _).2.1 _,
    by simp, (load_transcripts_keys _).2.2 (by simp)⟩

/-! ## C4 — title derivation -/

theorem pyReplace_single (c d : Char) (s : List Char) :
    pyReplace [c] [d] s = s.map (fun x => if x = c then d else x) := by
  induction s with
  | nil => rfl
  | cons a t ih =>
    rw [pyReplace_eq [c] [d] (by simp) (a :: t)]
    by_cases hac : a = c
    · subst hac
      have hpre : [a].isPrefixOf (a :: t) = true :=
        List.isPrefixOf_iff_prefix.mpr ⟨t, rfl⟩
      rw [if_pos hpre]
      show [d] ++ pyReplace [a] [d] t = List.map (fun x => if x = a then d else x) (a :: t)
      rw [ih]
      simp
    · have hnp : ¬ ([c].isPrefixOf (a :: t) = true) := by
        intro hc
        rcases List.isPrefixOf_iff_prefix.mp hc with ⟨u, hu⟩
        simp only [List.cons_append] at hu
        exact hac (List.head_eq_of_cons_eq hu).symm
      rw [if_neg hnp]
      show a :: pyReplace [c] [d] t = _
      rw [ih]
      simp [hac]

theorem pyReplace_empty_flatten (pat : List Char) (hp : pat ≠ []) :
    ∀ n s, s.length ≤ n → pyReplace pat [] s = (pySplit pat s).flatten := by
  intro n
  induction n with
  | zero =>
    intro s hs
    have : s = [] := List.length_eq_zero.mp (Nat.le_zero.mp hs)
    subst this
    rw [pyReplace_eq pat [] hp []]
    rw [if_neg (by intro hc; exact hp (List.prefix_nil.mp (List.isPrefixOf_iff_prefix.mp hc)))]
    rw [pySplit_cons pat hp [], firstIdx_nil pat hp]
    rfl
  | succ n ih =>
    intro s hs
    have hpl := length_sep_pos pat hp
    rw [pyReplace_eq pat [] hp s]
    by_cases hc : pat.isPrefixOf s
    · rw [if_pos hc]
      have hsl : pat.length ≤ s.length := (List.isPrefixOf_iff_prefix.mp hc).length_le
      have h0 : firstIdx pat s = some 0 := by
        cases s <;> simp [firstIdx, hc]
      rw [pySplit_cons pat hp s, h0]
      show pyReplace pat [] (s.drop pat.length) =
        (s.take 0 :: pySplit pat (s.drop (0 + pat.length))).flatten
      have hd : (s.drop pat.length).length = s.length - pat.length := List.length_drop _ _
      rw [ih (s.drop pat.length) (by omega)]
      simp [Nat.zero_add]
    · rw [if_neg hc]
      cases s with
      | nil =>
        rw [pySplit_cons pat hp [], firstIdx_nil pat hp]
        rfl
      | cons a t =>
        have hf : firstIdx pat (a :: t) = (firstIdx pat t).map (· + 1) := by
          simp [firstIdx, hc]
        rw [pySplit_cons pat hp (a :: t), hf]
        simp only [List.length_cons] at hs
        cases hft : firstIdx pat t with
        | none =>
          show a :: pyReplace pat [] t = ([a :: t]).flatten
          rw [ih t (by omega), pySplit_cons pat hp t, hft]
          rfl
        | some j =>
          show a :: pyReplace pat [] t =
            ((a :: t).take (j + 1) :: pySplit pat ((a :: t).drop (j + 1 + pat.length))).flatten
          have hb := firstIdx_bound hft
          have harith : j + 1 + pat.length = (j + pat.length) + 1 := by omega
          rw [harith]
          simp only [List.take_succ_cons, List.drop_succ_cons]
          rw [ih t (by omega), pySplit_cons pat hp t, hft]
          simp

/-- C4, corrected: the derived title splits the stem on underscore into at
most three parts; with at least three parts it is the third part with
underscores replaced by spaces and every occurrence of the subtitle suffix
`.vtt` removed (not only a trailing occurrence); otherwise the bare stem.
`ep_01_How_to_Focus` still yields `How to Focus` and `notes` yields `notes`. -/
theorem title_spec :
    (∀ stem, title stem = specTitle stem) ∧
    title ("ep_01_How_to_Focus".toList) = ("How to Focus".toList) ∧
    title ("notes".toList) = ("notes".toList) := by
  refine ⟨?_, rfl, rfl⟩
  intro stem
  rw [title, specTitle]
  by_cases h : 3 ≤ (pySplitN ("_".toList) 2 stem).length
  · rw [if_pos h, if_pos h]
    have h1 : ("_".toList) = ['_'] := rfl
    have h2 : (" ".toList) = [' '] := rfl
    rw [h1, h2, pyReplace_single '_' ' ']
    rw [pyReplace_empty_flatten (".vtt".toList) (by simp)
      (((pySplitN ['_'] 2 stem).getD 2 []).map (fun x => if x = '_' then ' ' else x)).length
      _ le_rfl]
    rfl
  · rw [if_neg h, if_neg h]

/-- C4 counterexample: on the stem `ep_01_a.vtt_b` the code removes the
mid-string `.vtt` occurrence, while the claim's "suffix stripped" rule
would keep it. -/
theorem title_counterexample :
    title ("ep_01_a.vtt_b".toList) = ("a b".toList) ∧
    claimTitle ("ep_01_a.vtt_b".toList) = ("a.vtt b".toList) ∧
    ("a b".toList) ≠ ("a.vtt b".toList) :=
  ⟨rfl, rfl, by decide⟩

/-! ## C7 — shape of the formatted history -/

theorem joinNl_entryLines (t : List (List Char × List Char)) :
    ∀ (i : Nat) (x : List Char), joinNl (x :: entryLines i t) = x ++ histChunks i t := by
  induction t with
  | nil =>
    intro i x
    simp [entryLines, joinNl, histChunks]
  | cons p u ih =>
    intro i x
    obtain ⟨q, a⟩ := p
    show joinNl (x :: ('\n' :: 'Q' :: (natChars i ++ ':' :: ' ' :: q)) ::
      ('A' :: (natChars i ++ ':' :: ' ' :: a)) :: entryLines (i + 1) u) = _
    rw [joinNl, joinNl]
    rw [ih (i + 1) ('A' :: (natChars i ++ ':' :: ' ' :: a))]
    simp [histChunks, histChunk, List.append_assoc]

theorem format_history_chunks (h : List (List Char × List Char)) (hne : h ≠ []) :
    format_history h = ("Previous conversation:".toList) ++ histChunks 1 h := by
  rw [format_history, if_neg hne]
  exact joinNl_entryLines h 1 _

/-- C7, corrected: on the empty history the formatter returns exactly the
sentinel; on a non-empty history it returns the header line followed, for
each pair at 1-based index n, by a blank separator line, the line `Qn: q`
and the line `An: a` (the blank separator is what the claim as stated
omits). -/
theorem format_history_shape :
    format_history [] = ("No previous conversation.".toList) ∧
    ∀ h : List (List Char × List Char), h ≠ [] →
      format_history h = ("Previous conversation:".toList) ++ histChunks 1 h :=
  ⟨rfl, format_history_chunks⟩

/-- C7 counterexample: the lines of a formatted one-entry history are the
header, a blank line, `Q1: q` and `A1: a` — not the header followed
directly by the two prefixed lines. -/
theorem format_history_lines_counterexample :
    pySplit ("\n".toList) (format_history [("q".toList, "a".toList)]) =
      [("Previous conversation:".toList), [], ("Q1: q".toList), ("A1: a".toList)] ∧
    pySplit ("\n".toList) (format_history [("q".toList, "a".toList)]) ≠
      [("Previous conversation:".toList), ("Q1: q".toList), ("A1: a".toList)] :=
  ⟨rfl, by decide⟩

/-- Witness for C7 at a concrete one-entry history. -/
theorem format_history_shape_witness :
    ([("q".toList, "a".toList)] : List (List Char × List Char)) ≠ [] ∧
    format_history [("q".toList, "a".toList)] =
      ("Previous conversation:".toList) ++ histChunks 1 [("q".toList, "a".toList)] :=
  ⟨by simp, format_history_shape.2 _ (by simp)⟩

/-! ## C8 — round-tripping the formatted history -/

theorem natCharsF_digits :
    ∀ f n c, c ∈ natCharsF f n → 48 ≤ c.toNat ∧ c.toNat ≤ 57 := by
  intro f
  induction f with
  | zero =>
    intro n c hc
    simp [natCharsF] at hc
  | succ f ih =>
    intro n c hc
    rw [natCharsF] at hc
    by_cases hn : n < 10
    · rw [if_pos hn] at hc
      simp only [List.mem_singleton] at hc
      subst hc
      interval_cases n <;> decide
    · rw [if_neg hn] at hc
      rcases List.mem_append.mp hc with h1 | h2
      · exact ih _ _ h1
      · simp only [List.mem_singleton] at h2
        subst h2
        have hm : n % 10 < 10 := Nat.mod_lt _ (by omega)
        set k := n % 10 with hk
        interval_cases k <;> decide

theorem natChars_no_colon (n : Nat) : ¬ ':' ∈ natChars n := by
  intro h
  have hd := natCharsF_digits (n + 1) n _ h
  have hc : (':').toNat = 58 := rfl
  omega

theorem natChars_no_newline (n : Nat) : ¬ '\n' ∈ natChars n := by
  intro h
  have hd := natCharsF_digits (n + 1) n _ h
  have hc : ('\n').toNat = 10 := rfl
  omega

theorem firstIdx_colon_space (pre q : List Char) (hp : ¬ ':' ∈ pre) :
    firstIdx (':' :: [' ']) (pre ++ ':' :: ' ' :: q) = some pre.length := by
  induction pre with
  | nil =>
    show firstIdx [':', ' '] (':' :: ' ' :: q) = some 0
    have hpre : [':', ' '].isPrefixOf (':' :: ' ' :: q) = true :=
      List.isPrefixOf_iff_prefix.mpr ⟨q, rfl⟩
    rw [firstIdx, if_pos hpre]
  | cons c t ih =>
    simp only [List.mem_cons, not_or] at hp
    show firstIdx [':', ' '] (c :: (t ++ ':' :: ' ' :: q)) = some (t.length + 1)
    have hnc : ¬ ([':', ' '].isPrefixOf (c :: (t ++ ':' :: ' ' :: q)) = true) := by
      intro hcp
      rcases List.isPrefixOf_iff_prefix.mp hcp with ⟨u, hu⟩
      simp only [List.cons_append] at hu
      exact hp.1 (List.head_eq_of_cons_eq hu)
    rw [firstIdx, if_neg hnc, ih hp.2]
    rfl

theorem afterMarker_eq (pre q : List Char) (hp : ¬ ':' ∈ pre) :
    afterMarker (pre ++ ':' :: ' ' :: q) = q := by
  rw [afterMarker, firstIdx_colon_space pre q hp]
  show (pre ++ ':' :: ' ' :: q).drop (pre.length + 2) = q
  have he : pre ++ ':' :: ' ' :: q = (pre ++ [':', ' ']) ++ q := by simp
  have hl : pre.length + 2 = (pre ++ [':', ' ']).length := by simp
  rw [he, hl, List.drop_left]

theorem takeWhile_no_newline (u : List Char) (hu : ¬ '\n' ∈ u) :
    u.takeWhile (fun c => c != '\n') = u ∧ u.dropWhile (fun c => c != '\n') = [] := by
  induction u with
  | nil => exact ⟨rfl, rfl⟩
  | cons c t ih =>
    simp only [List.mem_cons, not_or] at hu
    have hb : (c != '\n') = true := by
      rw [bne_iff_ne]
      exact fun he => hu.1 he.symm
    obtain ⟨h1, h2⟩ := ih hu.2
    constructor
    · rw [List.takeWhile_cons, hb]
      simp [h1]
    · rw [List.dropWhile_cons, hb]
      simp [h2]

theorem takeWhile_append_newline (u w : List Char) (hu : ¬ '\n' ∈ u) :
    (u ++ '\n' :: w).takeWhile (fun c => c != '\n') = u ∧
    (u ++ '\n' :: w).dropWhile (fun c => c != '\n') = '\n' :: w := by
  induction u with
  | nil =>
    constructor
    · show ('\n' :: w).takeWhile (fun c => c != '\n') = []
      rw [List.takeWhile_cons]
      simp
    · show ('\n' :: w).dropWhile (fun c => c != '\n') = '\n' :: w
      rw [List.dropWhile_cons]
      simp
  | cons c t ih =>
    simp only [List.mem_cons, not_or] at hu
    have hb : (c != '\n') = true := by
      rw [bne_iff_ne]
      exact fun he => hu.1 he.symm
    obtain ⟨h1, h2⟩ := ih hu.2
    constructor
    · show ((c :: (t ++ '\n' :: w)).takeWhile (fun c => c != '\n')) = c :: t
      rw [List.takeWhile_cons, hb]
      simp [h1]
    · show ((c :: (t ++ '\n' :: w)).dropWhile (fun c => c != '\n')) = '\n' :: w
      rw [List.dropWhile_cons, hb]
      simp [h2]

theorem parseEntriesF_nil (f : Nat) : parseEntriesF f [] = [] := by
  cases f <;> rfl

theorem parseEntriesF_succ2 (f : Nat) (c1 c2 : Char) (rest : List Char) :
    parseEntriesF (f + 1) (c1 :: c2 :: rest) =
      if c1 = '\n' ∧ c2 = '\n' then
        match rest.dropWhile (fun c => c != '\n') with
        | c3 :: rest3 =>
          if c3 = '\n' then
            (afterMarker (rest.takeWhile (fun c => c != '\n')),
              afterMarker (rest3.takeWhile (fun c => c != '\n'))) ::
              parseEntriesF f (rest3.dropWhile (fun c => c != '\n'))
          else []
        | _ => []
      else [] := rfl

theorem parseEntriesF_irrel :
    ∀ n f g s, s.length ≤ n → s.length < f → s.length < g →
      parseEntriesF f s = parseEntriesF g s := by
  intro n
  induction n with
  | zero =>
    intro f g s hn hf hg
    have : s = [] := List.length_eq_zero.mp (Nat.le_zero.mp hn)
    subst this
    rw [parseEntriesF_nil, parseEntriesF_nil]
  | succ n ih =>
    intro f g s hn hf hg
    cases f with
    | zero => omega
    | succ f =>
      cases g with
      | zero => omega
      | succ g =>
        rcases s with _ | ⟨c1, s1⟩
        · rfl
        rcases s1 with _ | ⟨c2, rest⟩
        · rfl
        rw [parseEntriesF_succ2, parseEntriesF_succ2]
        by_cases h12 : c1 = '\n' ∧ c2 = '\n'
        · rw [if_pos h12, if_pos h12]
          cases hd : rest.dropWhile (fun c => c != '\n') with
          | nil => rfl
          | cons c3 rest3 =>
            have hl1 : (rest.dropWhile (fun c => c != '\n')).length ≤ rest.length :=
              (List.dropWhile_sublist _).length_le
            rw [hd] at hl1
            have hl2 : (rest3.dropWhile (fun c => c != '\n')).length ≤ rest3.length :=
              (List.dropWhile_sublist _).length_le
            simp only [List.length_cons] at hl1 hn hf hg
            dsimp only
            by_cases h3 : c3 = '\n'
            · rw [if_pos h3, if_pos h3]
              congr 1
              exact ih f g _ (by omega) (by omega) (by omega)
            · rw [if_neg h3, if_neg h3]
        · rw [if_neg h12, if_neg h12]

theorem parseEntries_step (qcore acore rest2 : List Char)
    (hq : ¬ '\n' ∈ qcore) (ha : ¬ '\n' ∈ acore)
    (hr : rest2 = [] ∨ ∃ u, rest2 = '\n' :: u) :
    parseEntries ('\n' :: '\n' :: (qcore ++ '\n' :: (acore ++ rest2))) =
      (afterMarker qcore, afterMarker acore) :: parseEntries rest2 := by
  obtain ⟨e1, e2⟩ := takeWhile_append_newline qcore (acore ++ rest2) hq
  rw [parseEntries, parseEntriesF_succ2, if_pos ⟨rfl, rfl⟩, e2, e1]
  dsimp only
  rw [if_pos rfl]
  rcases hr with rfl | ⟨u, rfl⟩
  · obtain ⟨t1, t2⟩ := takeWhile_no_newline acore ha
    simp only [List.append_nil]
    rw [t1, t2, parseEntriesF_nil]
    rfl
  · obtain ⟨t1, t2⟩ := takeWhile_append_newline acore u ha
    rw [t1, t2]
    congr 1
    rw [parseEntries]
    apply parseEntriesF_irrel ('\n' :: u).length _ _ _ le_rfl
    · simp only [List.length_cons, List.length_append]
      omega
    · omega

theorem histChunks_head (t : List (List Char × List Char)) (i : Nat) :
    histChunks i t = [] ∨ ∃ u, histChunks i t = '\n' :: u := by
  cases t with
  | nil => exact Or.inl rfl
  | cons p u =>
    right
    obtain ⟨q, a⟩ := p
    exact ⟨_, rfl⟩

theorem parse_histChunks (t : List (List Char × List Char)) :
    ∀ i, nlFree t → parseEntries (histChunks i t) = t := by
  induction t with
  | nil => intro i h; rfl
  | cons p u ih =>
    intro i h
    obtain ⟨q, a⟩ := p
    have hqa := h (q, a) (List.mem_cons_self _ _)
    have hu : nlFree u := fun p hp => h p (List.mem_cons_of_mem _ hp)
    have hQ : ¬ '\n' ∈ 'Q' :: (natChars i ++ ':' :: ' ' :: q) := by
      intro hmem
      simp only [List.mem_cons, List.mem_append] at hmem
      rcases hmem with h1 | h3 | h5 | h7 | h8
      · exact absurd h1 (by decide)
      · exact natChars_no_newline i h3
      · exact absurd h5 (by decide)
      · exact absurd h7 (by decide)
      · exact hqa.1 h8
    have hA : ¬ '\n' ∈ 'A' :: (natChars i ++ ':' :: ' ' :: a) := by
      intro hmem
      simp only [List.mem_cons, List.mem_append] at hmem
      rcases hmem with h1 | h3 | h5 | h7 | h8
      · exact absurd h1 (by decide)
      · exact natChars_no_newline i h3
      · exact absurd h5 (by decide)
      · exact absurd h7 (by decide)
      · exact hqa.2 h8
    have hshape : histChunks i ((q, a) :: u) =
        '\n' :: '\n' :: (('Q' :: (natChars i ++ ':' :: ' ' :: q)) ++ '\n' ::
          (('A' :: (natChars i ++ ':' :: ' ' :: a)) ++ histChunks (i + 1) u)) := by
      simp [histChunks, histChunk, List.append_assoc]
    rw [hshape]
    rw [parseEntries_step _ _ _ hQ hA (histChunks_head u (i + 1))]
    rw [ih (i + 1) hu]
    have am1 : afterMarker ('Q' :: (natChars i ++ ':' :: ' ' :: q)) = q := by
      have he : 'Q' :: (natChars i ++ ':' :: ' ' :: q) =
          ('Q' :: natChars i) ++ ':' :: ' ' :: q := by simp
      rw [he]
      apply afterMarker_eq
      intro hm
      rcases List.mem_cons.mp hm with h1 | h2
      · exact absurd h1 (by decide)
      · exact natChars_no_colon i h2
    have am2 : afterMarker ('A' :: (natChars i ++ ':' :: ' ' :: a)) = a := by
      have he : 'A' :: (natChars i ++ ':' :: ' ' :: a) =
          ('A' :: natChars i) ++ ':' :: ' ' :: a := by simp
      rw [he]
      apply afterMarker_eq
      intro hm
      rcases List.mem_cons.mp hm with h1 | h2
      · exact absurd h1 (by decide)
      · exact natChars_no_colon i h2
    rw [am1, am2]

/-- C8, corrected: on histories whose questions and answers contain no
newline character, re-deriving the pairs from the formatted text via the
`Qn:` / `An:` markers recovers the original sequence exactly, and the
formatter is injective; with embedded newlines an answer can forge an
entry block, so the unrestricted claim fails. -/
theorem format_history_roundtrip :
    (∀ h : List (List Char × List Char), nlFree h →
      parseEntries ((format_history h).drop 22) = h) ∧
    (∀ h1 h2 : List (List Char × List Char), nlFree h1 → nlFree h2 →
      format_history h1 = format_history h2 → h1 = h2) := by
  have main : ∀ h, nlFree h → parseEntries ((format_history h).drop 22) = h := by
    intro h hh
    cases h with
    | nil => rfl
    | cons p u =>
      rw [format_history_chunks _ (by simp)]
      rw [show (22 : Nat) = ("Previous conversation:".toList).length from rfl]
      rw [List.drop_left]
      exact parse_histChunks _ 1 hh
  refine ⟨main, ?_⟩
  intro h1 h2 hn1 hn2 he
  have hr := main h1 hn1
  rw [he, main h2 hn2] at hr
  exact hr.symm

/-- C8 counterexample: two distinct histories format to the same text — an
answer containing a forged `Q2:`/`A2:` block collides with a genuine second
exchange — so the formatter is not injective and no re-derivation can
recover both originals. -/
theorem format_history_not_injective :
    format_history [("x".toList, "y\n\nQ2: q\nA2: a".toList)] =
      format_history [("x".toList, "y".toList), ("q".toList, "a".toList)] ∧
    [("x".toList, "y\n\nQ2: q\nA2: a".toList)] ≠
      [("x".toList, "y".toList), ("q".toList, "a".toList)] :=
  ⟨rfl, by decide⟩

/-- Witness for C8 at a concrete newline-free history. -/
theorem format_history_roundtrip_witness :
    nlFree [("q".toList, "a".toList)] ∧
    parseEntries ((format_history [("q".toList, "a".toList)]).drop 22) =
      [("q".toList, "a".toList)] :=
  ⟨by unfold nlFree; decide, format_history_roundtrip.1 _ (by unfold nlFree; decide)⟩

/-! ## C10 — the raw iteration index -/

theorem pySplit_single_headI (c : Char) (t : List Char) :
    (pySplit [c] t).headI = t.takeWhile (fun x => x != c) := by
  induction t with
  | nil => rfl
  | cons a t ih =>
    rw [pySplit_cons [c] (by simp) (a :: t)]
    by_cases hac : c = a
    · subst hac
      have h0 : firstIdx [c] (c :: t) = some 0 := by
        have hpre : [c].isPrefixOf (c :: t) = true :=
          List.isPrefixOf_iff_prefix.mpr ⟨t, rfl⟩
        rw [firstIdx, if_pos hpre]
      rw [h0]
      show ((c :: t).take 0 :: pySplit [c] ((c :: t).drop (0 + 1))).headI = _
      rw [List.headI_cons, List.takeWhile_cons]
      simp
    · have hnp : ¬ ([c].isPrefixOf (a :: t) = true) := by
        intro hcp
        rcases List.isPrefixOf_iff_prefix.mp hcp with ⟨u, hu⟩
        simp only [List.cons_append] at hu
        exact hac (List.head_eq_of_cons_eq hu)
      have hf : firstIdx [c] (a :: t) = (firstIdx [c] t).map (· + 1) := by
        rw [firstIdx, if_neg hnp]
      rw [hf]
      have hat : (a != c) = true := by
        rw [bne_iff_ne]
        exact fun he => hac he.symm
      cases hi : firstIdx [c] t with
      | none =>
        show ([a :: t] : List (List Char)).headI = (a :: t).takeWhile (fun x => x != c)
        rw [List.headI_cons, List.takeWhile_cons, hat]
        have ht : t.takeWhile (fun x => x != c) = t := by
          rw [← ih, pySplit_cons [c] (by simp) t, hi]
          rfl
        simp [ht]
      | some j =>
        show (((a :: t).take (j + 1) :: pySplit [c] ((a :: t).drop (j + 1 + 1))).headI) =
          (a :: t).takeWhile (fun x => x != c)
        rw [List.headI_cons, List.take_succ_cons, List.takeWhile_cons, hat]
        have ht : t.take j = t.takeWhile (fun x => x != c) := by
          rw [← ih, pySplit_cons [c] (by simp) t, hi]
          rfl
        simp [ht]

theorem lstrip_append_spaces (sp x : List Char) (hsp : ∀ c ∈ sp, isPySpace c = true) :
    lstrip (sp ++ x) = lstrip x := by
  induction sp with
  | nil => rfl
  | cons c t ih =>
    have hc := hsp c (List.mem_cons_self _ _)
    show lstrip (c :: (t ++ x)) = lstrip x
    rw [lstrip, List.dropWhile_cons, hc]
    simp only [if_pos rfl]
    exact ih (fun d hd => hsp d (List.mem_cons_of_mem _ hd))

theorem pyStrip_append_spaces (sp x : List Char) (hsp : ∀ c ∈ sp, isPySpace c = true) :
    pyStrip (sp ++ x) = pyStrip x := by
  rw [pyStrip, pyStrip, lstrip_append_spaces sp x hsp]

theorem takeWhile_slash_append_spaces (sp x : List Char)
    (hsp : ∀ c ∈ sp, isPySpace c = true) :
    (sp ++ x).takeWhile (fun c => c != '/') = sp ++ x.takeWhile (fun c => c != '/') := by
  induction sp with
  | nil => rfl
  | cons c t ih =>
    have hc := hsp c (List.mem_cons_self _ _)
    have hcs : (c != '/') = true := by
      rw [bne_iff_ne]
      intro he
      subst he
      exact absurd hc (by decide)
    show ((c :: (t ++ x)).takeWhile (fun c => c != '/')) = c :: (t ++ _)
    rw [List.takeWhile_cons, hcs, ih (fun d hd => hsp d (List.mem_cons_of_mem _ hd))]
    simp

theorem takeWhile_slash_append_of_mem (a w : List Char) (ha : '/' ∈ a) :
    (a ++ w).takeWhile (fun c => c != '/') = a.takeWhile (fun c => c != '/') := by
  induction a with
  | nil => simp at ha
  | cons c t ih =>
    by_cases hc : c = '/'
    · subst hc
      rw [List.cons_append, List.takeWhile_cons, List.takeWhile_cons]
      simp
    · have hcs : (c != '/') = true := by
        rw [bne_iff_ne]
        exact hc
      have ht : '/' ∈ t := by
        rcases List.mem_cons.mp ha with h1 | h2
        · exact absurd h1.symm hc
        · exact h2
      rw [List.cons_append, List.takeWhile_cons, List.takeWhile_cons, hcs]
      simp [ih ht]

theorem rstrip_decomp (s : List Char) :
    s = rstrip s ++ (s.reverse.takeWhile isPySpace).reverse ∧
    ∀ c ∈ (s.reverse.takeWhile isPySpace).reverse, isPySpace c = true := by
  constructor
  · have h1 : s.reverse.takeWhile isPySpace ++ s.reverse.dropWhile isPySpace = s.reverse :=
      List.takeWhile_append_dropWhile _ _
    have h2 : s = (s.reverse.takeWhile isPySpace ++ s.reverse.dropWhile isPySpace).reverse := by
      rw [h1, List.reverse_reverse]
    rw [List.reverse_append] at h2
    exact h2
  · intro c hc
    rw [List.mem_reverse] at hc
    exact List.mem_takeWhile_imp hc

theorem slash_mem_lstrip (s : List Char) (h : '/' ∈ s) : '/' ∈ lstrip s := by
  have hA : s.takeWhile isPySpace ++ lstrip s = s := List.takeWhile_append_dropWhile _ _
  rw [← hA] at h
  rcases List.mem_append.mp h with h1 | h2
  · have := List.mem_takeWhile_imp h1
    exact absurd this (by decide)
  · exact h2

theorem slash_mem_rstrip (s : List Char) (h : '/' ∈ s) : '/' ∈ rstrip s := by
  obtain ⟨hB, hBs⟩ := rstrip_decomp s
  rw [hB] at h
  rcases List.mem_append.mp h with h1 | h2
  · exact h1
  · exact absurd (hBs _ h2) (by decide)

theorem pyStrip_takeWhile_slash (b : List Char) (hb : '/' ∈ b) :
    pyStrip ((pyStrip b).takeWhile (fun c => c != '/')) =
      pyStrip (b.takeWhile (fun c => c != '/')) := by
  have hA : b.takeWhile isPySpace ++ lstrip b = b := List.takeWhile_append_dropWhile _ _
  have hAs : ∀ c ∈ b.takeWhile isPySpace, isPySpace c = true :=
    fun c hc => List.mem_takeWhile_imp hc
  obtain ⟨hB, hBs⟩ := rstrip_decomp (lstrip b)
  have hrc : '/' ∈ rstrip (lstrip b) := slash_mem_rstrip _ (slash_mem_lstrip b hb)
  have step1 : b.takeWhile (fun c => c != '/') =
      b.takeWhile isPySpace ++ (lstrip b).takeWhile (fun c => c != '/') := by
    conv_lhs => rw [← hA]
    exact takeWhile_slash_append_spaces _ _ hAs
  have step2 : (lstrip b).takeWhile (fun c => c != '/') =
      (rstrip (lstrip b)).takeWhile (fun c => c != '/') := by
    conv_lhs => rw [hB]
    exact takeWhile_slash_append_of_mem _ _ hrc
  rw [step1, pyStrip_append_spaces _ _ hAs, step2]
  rfl

/-- C10, corrected (amended): for a marker-bearing log line whose first
line contains exactly one occurrence of the token `iteration` with a `/`
somewhere after it, the emitted IterationStart index is exactly the
whitespace-trimmed raw text between the `iteration` token and the next `/`
— no numeric validation, a non-numeric token is emitted verbatim.  When
`iteration` recurs in the first line, the code instead takes the segment
between the first two occurrences, which refutes the claim as stated. -/
theorem iteration_index_amended (msg : List Char)
    (hmark : pyIn ("RLM iteration".toList) msg = true)
    (hsplit : (pySplit ("iteration".toList) (headerOf msg)).length = 2)
    (hslash : '/' ∈ (pySplit ("iteration".toList) (headerOf msg)).getD 1 []) :
    ∃ rest, emitEvents msg =
      Except.ok (Event.iterationStart (specIdx (headerOf msg)) :: rest) := by
  have hsep : ("iteration".toList : List Char) ≠ [] := by simp
  have h9 : ("iteration".toList).length = 9 := rfl
  cases hf : firstIdx ("iteration".toList) (headerOf msg) with
  | none =>
    rw [pySplit_cons _ hsep, hf] at hsplit
    simp at hsplit
  | some i =>
    have hps : pySplit ("iteration".toList) (headerOf msg) =
        (headerOf msg).take i ::
          pySplit ("iteration".toList) ((headerOf msg).drop (i + 9)) := by
      rw [pySplit_cons _ hsep, hf, h9]
    rw [hps] at hsplit hslash
    have h2 : (pySplit ("iteration".toList) ((headerOf msg).drop (i + 9))).length = 1 := by
      simpa using hsplit
    have hb : pySplit ("iteration".toList) ((headerOf msg).drop (i + 9)) =
        [(headerOf msg).drop (i + 9)] := by
      cases hf2 : firstIdx ("iteration".toList) ((headerOf msg).drop (i + 9)) with
      | none => rw [pySplit_cons _ hsep, hf2]
      | some j =>
        exfalso
        have hps2 : pySplit ("iteration".toList) ((headerOf msg).drop (i + 9)) =
            ((headerOf msg).drop (i + 9)).take j ::
              pySplit ("iteration".toList) (((headerOf msg).drop (i + 9)).drop (j + 9)) := by
          rw [pySplit_cons _ hsep, hf2, h9]
        rw [hps2] at h2
        simp only [List.length_cons] at h2
        have hz : (pySplit ("iteration".toList)
            (((headerOf msg).drop (i + 9)).drop (j + 9))).length = 0 := by omega
        exact pySplit_ne_nil ("iteration".toList) hsep _
          (List.length_eq_zero.mp hz)
    have hslash2 : '/' ∈ (headerOf msg).drop (i + 9) := by
      rw [hb] at hslash
      simpa using hslash
    have hget : (pySplit ("iteration".toList) (headerOf msg)).get? 1 =
        some ((headerOf msg).drop (i + 9)) := by
      rw [hps, hb]
      rfl
    have hidx : pyStrip ((pySplit ("/".toList) (pyStrip ((headerOf msg).drop (i + 9)))).headI) =
        specIdx (headerOf msg) := by
      have hsl : ("/".toList : List Char) = ['/'] := rfl
      rw [hsl, pySplit_single_headI, pyStrip_takeWhile_slash _ hslash2]
      rw [specIdx, hf]
      rfl
    rw [emitEvents, if_pos hmark, hget]
    dsimp only
    by_cases hC : (pySplitN ("\n".toList) 1 msg).length ≤ 1 ∨
        ¬ pyIn ("Reasoning:".toList) (bodyOf msg) = true
    · refine ⟨[], ?_⟩
      rw [if_pos hC, hidx]
    · refine ⟨(if reasoningSegment (bodyOf msg) ≠ [] then
          [Event.reasoningBlock (truncReasoning (reasoningSegment (bodyOf msg)))]
        else []) ++
        (if codeSegment (bodyOf msg) ≠ [] then
          [Event.codeBlock (processCode (codeSegment (bodyOf msg)))]
        else []), ?_⟩
      rw [if_neg hC, hidx]
      simp

/-- C10 counterexample: in `RLM iteration iteration3/20` the token
`iteration` recurs before the `/`, the code emits the empty index (the
trimmed text between the two occurrences), while the claim's rule — the
trimmed text between the first `iteration` and the next `/` — is
`iteration3`. -/
theorem iteration_index_counterexample :
    emitEvents ("RLM iteration iteration3/20".toList) =
      Except.ok [Event.iterationStart []] ∧
    specIdx (headerOf ("RLM iteration iteration3/20".toList)) = ("iteration3".toList) ∧
    ([] : List Char) ≠ ("iteration3".toList) :=
  ⟨rfl, rfl, by decide⟩

/-- Witness for C10 at the line `RLM iteration abc/20`: the non-numeric
token `abc` is emitted verbatim as the step index. -/
theorem iteration_index_amended_witness :
    pyIn ("RLM iteration".toList) ("RLM iteration abc/20".toList) = true ∧
    (pySplit ("iteration".toList) (headerOf ("RLM iteration abc/20".toList))).length = 2 ∧
    '/' ∈ (pySplit ("iteration".toList) (headerOf ("RLM iteration abc/20".toList))).getD 1 [] ∧
    specIdx (headerOf ("RLM iteration abc/20".toList)) = ("abc".toList) ∧
    (∃ rest, emitEvents ("RLM iteration abc/20".toList) =
      Except.ok (Event.iterationStart
        (specIdx (headerOf ("RLM iteration abc/20".toList))) :: rest)) :=
  ⟨rfl, rfl, by decide, rfl, iteration_index_amended _ rfl rfl (by decide)⟩

/-! ## C5 — reasoning and code segments -/

theorem fenceTail_spec (c : List Char) : fenceTail c = specFenceTail c := by
  rw [fenceTail, specFenceTail]
  by_cases h : ("```".toList) <:+ c
  · rw [if_pos (List.isSuffixOf_iff_suffix.mpr h), if_pos h]
  · rw [if_neg (fun hc => h (List.isSuffixOf_iff_suffix.mp hc)), if_neg h]

theorem fenceStrip_spec (c : List Char) : fenceStrip c = specStripFence c := by
  rw [fenceStrip, specStripFence]
  by_cases h1 : ("```python".toList) <+: c
  · rw [if_pos (List.isPrefixOf_iff_prefix.mpr h1), if_pos h1, fenceTail_spec]
  · rw [if_neg (fun hc => h1 (List.isPrefixOf_iff_prefix.mp hc)), if_neg h1]
    by_cases h2 : ("```".toList) <+: c
    · rw [if_pos (List.isPrefixOf_iff_prefix.mpr h2), if_pos h2, fenceTail_spec]
    · rw [if_neg (fun hc => h2 (List.isPrefixOf_iff_prefix.mp hc)), if_neg h2, fenceTail_spec]

/-- C5, corrected: for every body containing a `Reasoning:` marker, the
reasoning segment is the trimmed text from the end of the first
`Reasoning:` marker to the first `Code:` marker when that marker occurs at
a strictly positive offset (else to the end of the body), and the code
segment is the trimmed remainder after such a `Code:` marker; a `Code:`
marker at offset 0 of the body is treated as absent, which refutes the
claim as stated.  The displayed code is the segment with a leading fence
(` ```python ` or bare ` ``` `) and a trailing fence stripped when present
at the very start/end, then trimmed and truncated. -/
theorem segments_spec :
    (∀ content : List Char, pyIn ("Reasoning:".toList) content = true →
      reasoningSegment content = specReasoningSeg content ∧
      codeSegment content = specCodeSeg content) ∧
    (∀ c : List Char, processCode c = truncCode (pyStrip (specStripFence (pyStrip c)))) := by
  constructor
  · intro content h
    obtain ⟨r, hr⟩ : ∃ r, firstIdx ("Reasoning:".toList) content = some r := by
      rw [pyIn] at h
      exact Option.isSome_iff_exists.mp h
    have hfind : pyFind ("Reasoning:".toList) content = (r : Int) := by
      rw [pyFind, hr]
    have hrs : ((pyFind ("Reasoning:".toList) content) + 10).toNat = r + 10 := by
      rw [hfind]
      omega
    have hrs2 : (firstIdx ("Reasoning:".toList) content).getD 0 + 10 = r + 10 := by
      rw [hr]
      rfl
    cases hcs : firstIdx ("Code:".toList) content with
    | none =>
      have hcf : pyFind ("Code:".toList) content = -1 := by
        rw [pyFind, hcs]
      constructor
      · rw [reasoningSegment, specReasoningSeg, hcs, hcf, hrs, hrs2]
        rw [if_neg (by omega)]
      · rw [codeSegment, specCodeSeg, hcs, hcf]
        rw [if_neg (by omega)]
    | some cs =>
      have hcf : pyFind ("Code:".toList) content = (cs : Int) := by
        rw [pyFind, hcs]
      by_cases hpos : 0 < cs
      · constructor
        · rw [reasoningSegment, specReasoningSeg, hcs, hcf, hrs]
          rw [if_pos (by omega)]
          dsimp only
          rw [if_pos hpos, hrs2, Int.toNat_natCast, List.drop_take]
        · rw [codeSegment, specCodeSeg, hcs, hcf]
          rw [if_pos (by omega)]
          dsimp only
          rw [if_pos hpos, Int.toNat_natCast]
      · have hcs0 : cs = 0 := by omega
        subst hcs0
        constructor
        · rw [reasoningSegment, specReasoningSeg, hcs, hcf, hrs, hrs2]
          rw [if_neg (by omega)]
          dsimp only
          rw [if_neg hpos]
        · rw [codeSegment, specCodeSeg, hcs, hcf]
          rw [if_neg (by omega)]
          dsimp only
          rw [if_neg hpos]
  · intro c
    rw [processCode, fenceStrip_spec]

/-- C5 counterexample: in the body `Code: print(1)\nReasoning: because` the
`Code:` marker sits at offset 0, so the code treats it as absent — the code
segment is empty (no CodeBlock event) and the reasoning segment runs to the
end of the body — while the claim's reading yields the code segment
`print(1)\nReasoning: because` and an empty reasoning segment. -/
theorem segments_counterexample :
    reasoningSegment ("Code: print(1)\nReasoning: because".toList) = ("because".toList) ∧
    codeSegment ("Code: print(1)\nReasoning: because".toList) = [] ∧
    claimReasoningSeg ("Code: print(1)\nReasoning: because".toList) = [] ∧
    claimCodeSeg ("Code: print(1)\nReasoning: because".toList) =
      ("print(1)\nReasoning: because".toList) ∧
    emitEvents ("RLM iteration 1/2\nCode: print(1)\nReasoning: because".toList) =
      Except.ok [Event.iterationStart ("1".toList),
        Event.reasoningBlock ("because".toList)] :=
  ⟨rfl, rfl, rfl, rfl, rfl⟩

/-- Witness for C5 at a concrete body and a concrete fenced code block. -/
theorem segments_spec_witness :
    pyIn ("Reasoning:".toList) ("Reasoning: why\nCode: x = 1".toList) = true ∧
    reasoningSegment ("Reasoning: why\nCode: x = 1".toList) =
      specReasoningSeg ("Reasoning: why\nCode: x = 1".toList) ∧
    codeSegment ("Reasoning: why\nCode: x = 1".toList) =
      specCodeSeg ("Reasoning: why\nCode: x = 1".toList) ∧
    processCode ("```python\nx = 1\n```".toList) =
      truncCode (pyStrip (specStripFence (pyStrip ("```python\nx = 1\n```".toList)))) :=
  ⟨rfl, (segments_spec.1 ("Reasoning: why\nCode: x = 1".toList) rfl).1,
    (segments_spec.1 ("Reasoning: why\nCode: x = 1".toList) rfl).2, segments_spec.2 _⟩

end Huberman
